import Mathlib

/-!
# Ledger reconciliation and aggregation engine: a shallow embedding

This file embeds the core of `src/steamlit_app.py` (a bank-ledger
reconciliation dashboard) in Lean and proves the testable properties of its
specification against that embedding.

Modelling conventions:
* A pandas `DataFrame` of ledger rows is a `List Row`; row order is the frame
  order.
* The `Betrag EUR` column (a decimal currency amount) is a rational number.
* The `Datum` column after `read_csv(..., parse_dates=["Datum"])` holds either
  a parsed calendar date (`Datum.date`), a raw cell that is not a parseable
  date (`Datum.raw`), or a missing value `NaT` (`Datum.naT`).
  `pd.to_datetime(..., errors="coerce")` maps parsed dates to themselves and
  unparseable raw cells to `NaT`.
* In-place column assignment (`df["Datum"] = ...` inside
  `filter_transactions`) is modelled by explicit state passing: the embedded
  function also returns the post-call contents of the caller's frame.
* A fallible pandas operation (`transactions.index[0]` on an empty frame
  raises `IndexError`) is modelled with `Option`; `none` is the raised error.
-/

namespace Digifin

/-- A calendar date (year, month, day). -/
structure Date where
  year : Int
  month : Int
  day : Int
deriving DecidableEq

/-- The contents of one `Datum` cell, as produced by
`read_csv(..., parse_dates=["Datum"])`: a parsed date, a raw cell whose text
is not a parseable date, or a missing value `NaT`. -/
inductive Datum where
  | date (d : Date)
  | raw (s : String)
  | naT
deriving DecidableEq

/-- One ledger row: `Datum`, `Erläuterung` (description), `Betrag EUR`. -/
structure Row where
  datum : Datum
  erl : String
  betrag : ℚ
deriving DecidableEq

/-- A ledger row together with its reconstructed `Saldo` (running balance). -/
structure BalRow where
  row : Row
  saldo : ℚ
deriving DecidableEq

/-- `prefixOfL n l` is true when `n` is an initial segment of `l`. -/
def prefixOfL : List Char → List Char → Bool
  | [], _ => true
  | _ :: _, [] => false
  | a :: as, b :: bs => a == b && prefixOfL as bs

/-- `substringOf n l` is true when `n` occurs contiguously inside `l`
(Python's `n in l` on strings). -/
def substringOf (n : List Char) : List Char → Bool
  | [] => n.isEmpty
  | c :: t => prefixOfL n (c :: t) || substringOf n t

/-- The snapshot marker used by the app (case-sensitive). -/
def kontostandMarker : List Char := "Kontostand".toList

/-- `'Kontostand' in s` / `Series.str.contains("Kontostand")`:
case-sensitive substring test on a description. -/
def containsKontostand (s : String) : Bool :=
  substringOf kontostandMarker s.toList

/-- Lexicographic order on calendar dates (pandas timestamp order). -/
def Date.leB (a b : Date) : Bool :=
  decide (a.year < b.year ∨ (a.year = b.year ∧
    (a.month < b.month ∨ (a.month = b.month ∧ a.day ≤ b.day))))

/-- Order on `Datum` cells used by `sort_values(by="Datum")`: parsed dates
by timestamp order, missing/unparseable values last (`na_position="last"`). -/
def Datum.leB : Datum → Datum → Bool
  | .date a, .date b => Date.leB a b
  | .date _, _ => true
  | _, .date _ => false
  | _, _ => true

/-- The comparison relation of `sort_values(by="Datum")` on rows. -/
def rowLe (a b : Row) : Prop := Datum.leB a.datum b.datum = true

instance : DecidableRel rowLe := fun a b =>
  inferInstanceAs (Decidable (Datum.leB a.datum b.datum = true))

/-- `transactions.sort_values(by="Datum")`: a permutation of the rows that is
ascending in `Datum`. -/
def sortByDatum (l : List Row) : List Row := List.insertionSort rowLe l

/-- The `Saldo` loop of `process_transactions` (lines 41-46): given the
running balance after the previous row, walk the remaining sorted rows; a row
whose description still contains `Kontostand` keeps the balance unchanged,
any other row adds its `Betrag EUR` to the balance. -/
def saldoLoop : ℚ → List Row → List BalRow
  | _, [] => []
  | cur, r :: rs =>
    if containsKontostand r.erl then ⟨r, cur⟩ :: saldoLoop cur rs
    else ⟨r, cur + r.betrag⟩ :: saldoLoop (cur + r.betrag) rs

/-- `process_transactions` (lines 18-48) on the decoded row list: an empty
input returns two empty frames; otherwise the `Kontostand` rows are
extracted, the remaining rows are sorted by `Datum` and the `Saldo` column is
computed, seeded with the first sorted row's own `Betrag EUR`.
`none` models the `IndexError` raised by `transactions.index[0]` when every
row of a non-empty input is a `Kontostand` row. -/
def process_transactions (rows : List Row) : Option (List BalRow × List Row) :=
  if rows.isEmpty then some ([], [])
  else
    match sortByDatum (rows.filter fun r => !containsKontostand r.erl) with
    | [] => none
    | first :: rest =>
      some (⟨first, first.betrag⟩ :: saldoLoop first.betrag rest,
        rows.filter fun r => containsKontostand r.erl)

/-! ## Filter engine (`filter_transactions`, lines 52-67) -/

/-- `pd.to_datetime(cell, errors="coerce")`: an already parsed date stays
itself, an unparseable raw cell becomes `NaT`, `NaT` stays `NaT`. -/
def coerceDatum : Datum → Datum
  | .date d => .date d
  | .raw _ => .naT
  | .naT => .naT

/-- The effect of `df["Datum"] = pd.to_datetime(df["Datum"], errors="coerce")`
on one row. -/
def coerceRow (r : Row) : Row := { r with datum := coerceDatum r.datum }

/-- `Series.isna()` on a `Datum` cell. -/
def isNaDatum : Datum → Bool
  | .naT => true
  | _ => false

/-- `df["Datum"] >= pd.Timestamp(start_date)`: `NaT` (and a raw cell) compares
false against a timestamp. -/
def datumGeStart (d : Datum) (s : Date) : Bool :=
  match d with
  | .date x => Date.leB s x
  | _ => false

/-- `df["Datum"] <= pd.Timestamp(end_date)`: `NaT` (and a raw cell) compares
false against a timestamp. -/
def datumLeEnd (d : Datum) (e : Date) : Bool :=
  match d with
  | .date x => Date.leB x e
  | _ => false

/-- ASCII case folding of one character, as applied by `case=False`
(`re.IGNORECASE`) for ASCII text. -/
def lowerChar (c : Char) : Char :=
  if 65 ≤ c.toNat ∧ c.toNat ≤ 90 then Char.ofNat (c.toNat + 32) else c

/-- Case folding of a character list. -/
def lowerList (l : List Char) : List Char := l.map lowerChar

/-- `"|".join(keywords)` on character lists. -/
def joinBar : List (List Char) → List Char
  | [] => []
  | k :: ks =>
    match ks with
    | [] => k
    | _ :: _ => k ++ '|' :: joinBar ks

/-- Split a regex pattern at its top-level `|` alternation bars. -/
def splitBar : List Char → List (List Char)
  | [] => [[]]
  | c :: cs =>
    if c = '|' then [] :: splitBar cs
    else
      match splitBar cs with
      | [] => [[c]]
      | b :: bs => (c :: b) :: bs

/-- One regex atom against one character: `.` matches any character, any
other character matches itself. -/
def atomMatch (a c : Char) : Bool := a == '.' || a == c

/-- A branch (sequence of atoms) matched at the start of a string. -/
def matchesAt : List Char → List Char → Bool
  | [], _ => true
  | _ :: _, [] => false
  | a :: as, c :: cs => atomMatch a c && matchesAt as cs

/-- A branch matched at some position of a string (`re.search` of one
alternative). -/
def searchBranch (branch : List Char) : List Char → Bool
  | [] => matchesAt branch []
  | c :: t => matchesAt branch (c :: t) || searchBranch branch t

/-- `re.search(pattern, s)` for the regex fragment that `"|".join(keywords)`
produces when the keywords use no regex metacharacter other than `.`:
top-level alternation of atom sequences, `.` a wildcard. -/
def reSearch (pat s : List Char) : Bool :=
  (splitBar pat).any fun b => searchBranch b s

/-- Line 64: `Series.str.contains("|".join(keywords), case=False)` applied to
one description. -/
def keywordTest (keywords : List String) (erl : String) : Bool :=
  reSearch (lowerList (joinBar (keywords.map String.toList)))
    (lowerList erl.toList)

/-- Line 57: `df[df["Datum"].isna()]`, on the re-coerced frame. -/
def invalid_date_rows (df : List Row) : List Row :=
  (df.map coerceRow).filter fun r => isNaDatum r.datum

/-- Line 60: the date-range pass over the re-coerced frame,
`df[(df["Datum"] >= start) & (df["Datum"] <= end)]`. -/
def filtered_by_range (df : List Row) (startD endD : Date) : List Row :=
  (df.map coerceRow).filter fun r =>
    datumGeStart r.datum startD && datumLeEnd r.datum endD

/-- `filter_transactions` (lines 52-67). The first component of the result is
the pair the Python function returns (`filtered_df`, `invalid_date_rows`);
the second component is the content of the caller's frame `df` after the
call, which line 54 has re-assigned in place. -/
def filter_transactions (df : List Row) (startD endD : Date)
    (keywords : List String) : (List Row × List Row) × List Row :=
  ((if keywords.isEmpty then filtered_by_range df startD endD
    else (filtered_by_range df startD endD).filter fun r =>
      keywordTest keywords r.erl,
    invalid_date_rows df), df.map coerceRow)

/-! ## Aggregator (`calculate_financials`, lines 71-88, and the monthly
aggregation of `generate_monthly_summary_chart`, lines 94-104) -/

/-- The parsed date of a row, if any (`Series.dt.date`; the model carries
calendar dates only, so the time-of-day truncation is the identity). -/
def datumDate : Datum → Option Date
  | .date d => some d
  | _ => none

/-- `filtered_transactions["Datum"].dt.date.nunique()`: the number of
distinct calendar dates (missing values not counted). -/
def uniqueDays (df : List Row) : Nat :=
  ((df.filterMap fun r => datumDate r.datum).dedup).length

/-- Line 73: `df[df["Betrag EUR"] > 0]["Betrag EUR"].sum()`. -/
def total_income (df : List Row) : ℚ :=
  ((df.filter fun r => decide ((0 : ℚ) < r.betrag)).map Row.betrag).sum

/-- Line 74: `df[df["Betrag EUR"] < 0]["Betrag EUR"].sum()`. -/
def total_expenses (df : List Row) : ℚ :=
  ((df.filter fun r => decide (r.betrag < (0 : ℚ))).map Row.betrag).sum

/-- `calculate_financials` (lines 71-88): total income (sum of positive
amounts), total expenses (signed sum of negative amounts), net balance, and
the two per-day averages guarded by `unique_days > 0`. -/
def calculate_financials (df : List Row) : ℚ × ℚ × ℚ × ℚ × ℚ :=
  (total_income df, total_expenses df, total_income df + total_expenses df,
    if 0 < uniqueDays df then total_income df / (uniqueDays df : ℚ) else 0,
    if 0 < uniqueDays df then total_expenses df / (uniqueDays df : ℚ) else 0)

/-- `Series.dt.to_period("M")`: the (year, month) key of a date. -/
def monthKey (d : Date) : Int × Int := (d.year, d.month)

/-- The month key of a row, if its date is valid (`groupby` drops `NaT`
keys). -/
def rowMonth (r : Row) : Option (Int × Int) :=
  match r.datum with
  | .date d => some (monthKey d)
  | _ => none

/-- Chronological order on month keys. -/
def monthLe (a b : Int × Int) : Prop :=
  a.1 < b.1 ∨ (a.1 = b.1 ∧ a.2 ≤ b.2)

instance : DecidableRel monthLe := fun a b =>
  inferInstanceAs (Decidable (a.1 < b.1 ∨ (a.1 = b.1 ∧ a.2 ≤ b.2)))

/-- The rows of one month's group. -/
def monthRows (df : List Row) (k : Int × Int) : List Row :=
  df.filter fun r => decide (rowMonth r = some k)

/-- The distinct month keys present in the frame, in the ascending order
that `groupby` (with its default `sort=True`) produces. -/
def monthKeys (df : List Row) : List (Int × Int) :=
  List.insertionSort monthLe (df.filterMap rowMonth).dedup

/-- One group's `Income = x[x > 0].sum()` (line 99). -/
def month_income (df : List Row) (k : Int × Int) : ℚ :=
  (((monthRows df k).filter fun r =>
    decide ((0 : ℚ) < r.betrag)).map Row.betrag).sum

/-- One group's `Expenses = x[x < 0].sum() * -1` (line 100). -/
def month_expense (df : List Row) (k : Int × Int) : ℚ :=
  (((monthRows df k).filter fun r =>
    decide (r.betrag < (0 : ℚ))).map Row.betrag).sum * (-1)

/-- The `monthly_summary` computation of `generate_monthly_summary_chart`
(lines 94-104): group by the month of `Datum` (`groupby` sorts its keys
ascending and drops `NaT` keys), one output row per month present. -/
def monthly_summary (df : List Row) : List ((Int × Int) × ℚ × ℚ) :=
  (monthKeys df).map fun k => (k, month_income df k, month_expense df k)

/-! ## Properties of the balance reconstructor -/

/-- The balance recurrence between reconstructed rows `i` and `i + 1`: a row
whose description still contains the marker carries the balance forward
unchanged, any other row adds its amount. -/
def stepOk (L : List BalRow) (i : Nat) : Prop :=
  ∀ h : i + 1 < L.length,
    (containsKontostand ((L.get ⟨i + 1, h⟩).row.erl) = true →
      (L.get ⟨i + 1, h⟩).saldo = (L.get ⟨i, Nat.lt_of_succ_lt h⟩).saldo) ∧
    (containsKontostand ((L.get ⟨i + 1, h⟩).row.erl) = false →
      (L.get ⟨i + 1, h⟩).saldo =
        (L.get ⟨i, Nat.lt_of_succ_lt h⟩).saldo + (L.get ⟨i + 1, h⟩).row.betrag)

theorem saldoLoop_cons (cur : ℚ) (r : Row) (rs : List Row) :
    ∃ b : BalRow, saldoLoop cur (r :: rs) = b :: saldoLoop b.saldo rs ∧
      b.row = r ∧
      (containsKontostand r.erl = true → b.saldo = cur) ∧
      (containsKontostand r.erl = false → b.saldo = cur + r.betrag) := by
  by_cases h : containsKontostand r.erl = true
  · exact ⟨⟨r, cur⟩, by simp [saldoLoop, h], rfl, fun _ => rfl,
      fun hc => by rw [h] at hc; cases hc⟩
  · have h' : containsKontostand r.erl = false := by
      cases hc : containsKontostand r.erl
      · rfl
      · exact absurd hc h
    refine ⟨⟨r, cur + r.betrag⟩, by simp [saldoLoop, h'], rfl, ?_, fun _ => rfl⟩
    intro hc
    rw [h'] at hc
    cases hc

theorem stepOk_cons (a : BalRow) (L : List BalRow) (i : Nat)
    (h : stepOk L i) : stepOk (a :: L) (i + 1) := by
  intro hlen
  have hlen' : i + 1 < L.length := by
    simpa using Nat.lt_of_succ_lt_succ hlen
  simpa [List.get] using h hlen'

theorem saldo_chain : ∀ (i : Nat) (rs : List Row) (b0 : BalRow),
    stepOk (b0 :: saldoLoop b0.saldo rs) i := by
  intro i
  induction i with
  | zero =>
    intro rs b0
    match rs with
    | [] =>
      intro h
      simp [saldoLoop] at h
    | r :: rs =>
      obtain ⟨b, hb, hrow, hk, hnk⟩ := saldoLoop_cons b0.saldo r rs
      rw [hb]
      intro h
      refine ⟨fun hc => ?_, fun hc => ?_⟩
      · simp only [List.get] at hc ⊢
        exact hk (hrow ▸ hc)
      · simp only [List.get] at hc ⊢
        rw [hnk (hrow ▸ hc), hrow]
  | succ i ih =>
    intro rs b0
    match rs with
    | [] =>
      intro h
      simp [saldoLoop] at h
    | r :: rs =>
      obtain ⟨b, hb, hrow, hk, hnk⟩ := saldoLoop_cons b0.saldo r rs
      rw [hb]
      exact stepOk_cons b0 (b :: saldoLoop b.saldo rs) i (ih rs b)

/-- C1. For every reconstructed transaction sequence, the first sorted row's
balance equals its own amount, and each later row's balance is the previous
balance when the description still contains the marker, and the previous
balance plus the row's amount otherwise. -/
theorem balance_recurrence (rows : List Row) (ts : List BalRow) (ks : List Row)
    (h : process_transactions rows = some (ts, ks)) :
    (∀ h0 : 0 < ts.length,
      (ts.get ⟨0, h0⟩).saldo = (ts.get ⟨0, h0⟩).row.betrag) ∧
    ∀ i, stepOk ts i := by
  unfold process_transactions at h
  by_cases he : rows.isEmpty
  · rw [if_pos he] at h
    obtain ⟨hts, hks⟩ := Prod.mk.injEq .. ▸ Option.some.injEq .. ▸ h
    refine ⟨fun h0 => ?_, fun i hlen => ?_⟩
    · rw [← hts] at h0; cases h0
    · rw [← hts] at hlen; cases hlen
  · rw [if_neg he] at h
    rcases hsort : sortByDatum (rows.filter fun r => !containsKontostand r.erl)
      with _ | ⟨first, rest⟩
    · rw [hsort] at h; cases h
    · rw [hsort] at h
      simp only [Option.some.injEq, Prod.mk.injEq] at h
      obtain ⟨hts, _⟩ := h
      subst hts
      exact ⟨fun _ => rfl, fun i => saldo_chain i rest ⟨first, first.betrag⟩⟩

/-- Demonstration rows for the concrete witnesses: a salary credit, a bank
snapshot row, and a rent debit. -/
def salaryRow : Row := ⟨.date ⟨2024, 1, 1⟩, "Salary", 1000⟩

def snapshotRow : Row := ⟨.date ⟨2024, 1, 5⟩, "Kontostand: 1000", 1000⟩

def rentRow : Row := ⟨.date ⟨2024, 1, 10⟩, "Rent", -400⟩

def demoRows : List Row := [salaryRow, snapshotRow, rentRow]

/-- The reconstructed sequence for `demoRows`. -/
def demoTs : List BalRow :=
  [⟨salaryRow, salaryRow.betrag⟩, ⟨rentRow, salaryRow.betrag + rentRow.betrag⟩]

/-- Witness for C1 at the three-row demonstration ledger. -/
theorem balance_recurrence_witness :
    (∀ h0 : 0 < demoTs.length,
      (demoTs.get ⟨0, h0⟩).saldo = (demoTs.get ⟨0, h0⟩).row.betrag) ∧
    ∀ i, stepOk demoTs i :=
  balance_recurrence demoRows demoTs [snapshotRow] rfl

/-- C2 (code bug evaluation). The empty input does return two empty frames,
but a non-empty input consisting only of snapshot-marker rows makes
`process_transactions` fail: `transactions.index[0]` on the emptied frame
raises `IndexError` (modelled by `none`). -/
theorem process_transactions_marker_only_fails :
    process_transactions [snapshotRow] = none ∧
    ([snapshotRow] : List Row) ≠ [] ∧
    process_transactions [] = some ([], []) := by
  refine ⟨rfl, ?_, rfl⟩
  intro h
  cases h

theorem saldoLoop_map_row : ∀ (cur : ℚ) (rs : List Row),
    (saldoLoop cur rs).map BalRow.row = rs := by
  intro cur rs
  induction rs generalizing cur with
  | nil => rfl
  | cons r rs ih =>
    by_cases h : containsKontostand r.erl = true
    · simp [saldoLoop, h, ih]
    · have h' : containsKontostand r.erl = false := by
        cases hc : containsKontostand r.erl
        · rfl
        · exact absurd hc h
      simp [saldoLoop, h', ih]

/-- C3. Whenever reconstruction returns, it partitions the input exactly by
the case-sensitive marker-substring test: the snapshot frame holds exactly
the marker rows, the transaction frame the rest, the lengths add up to the
input length, and the two outputs together are a permutation of the input. -/
theorem reconstruction_partition (rows : List Row) (ts : List BalRow)
    (ks : List Row) (h : process_transactions rows = some (ts, ks)) :
    ks.length = (rows.filter fun r => containsKontostand r.erl).length ∧
    ts.length = rows.length - ks.length ∧
    ts.length + ks.length = rows.length ∧
    List.Perm ((ts.map BalRow.row) ++ ks) rows ∧
    (∀ b ∈ ts, containsKontostand b.row.erl = false) ∧
    (∀ r ∈ ks, containsKontostand r.erl = true) := by
  unfold process_transactions at h
  by_cases he : rows.isEmpty
  · rw [if_pos he] at h
    have hrows : rows = [] := by
      cases rows
      · rfl
      · cases he
    simp only [Option.some.injEq, Prod.mk.injEq] at h
    obtain ⟨hts, hks⟩ := h
    subst hrows
    subst hts
    subst hks
    refine ⟨rfl, rfl, rfl, List.Perm.refl _, ?_, ?_⟩
    · intro b hb; cases hb
    · intro r hr; cases hr
  · rw [if_neg he] at h
    rcases hsort : sortByDatum (rows.filter fun r => !containsKontostand r.erl)
      with _ | ⟨first, rest⟩
    · rw [hsort] at h; cases h
    · rw [hsort] at h
      simp only [Option.some.injEq, Prod.mk.injEq] at h
      obtain ⟨hts, hks⟩ := h
      have hmap : ts.map BalRow.row = first :: rest := by
        rw [← hts]
        simp [saldoLoop_map_row]
      have hperm1 : List.Perm (ts.map BalRow.row)
          (rows.filter fun r => !containsKontostand r.erl) := by
        rw [hmap, ← hsort]
        exact List.perm_insertionSort rowLe _
      have hperm2 : List.Perm ks (rows.filter fun r => containsKontostand r.erl) := by
        rw [← hks]
      have hperm : List.Perm ((ts.map BalRow.row) ++ ks) rows := by
        refine List.Perm.trans (hperm1.append hperm2) ?_
        have := List.filter_append_perm
          (fun r => !containsKontostand r.erl) rows
        simpa [Bool.not_not] using this
      have hlen : ts.length + ks.length = rows.length := by
        have := hperm.length_eq
        simpa using this
      refine ⟨by rw [← hks], by omega, hlen, hperm, ?_, ?_⟩
      · intro b hb
        have hbrow : b.row ∈ rows.filter fun r => !containsKontostand r.erl :=
          hperm1.subset (List.mem_map_of_mem BalRow.row hb)
        have := List.of_mem_filter hbrow
        simpa using this
      · intro r hr
        rw [← hks] at hr
        exact (List.mem_filter.mp hr).2

/-- Witness for C3 at the three-row demonstration ledger. -/
theorem reconstruction_partition_witness :
    ([snapshotRow] : List Row).length =
      (demoRows.filter fun r => containsKontostand r.erl).length ∧
    demoTs.length = demoRows.length - ([snapshotRow] : List Row).length ∧
    demoTs.length + ([snapshotRow] : List Row).length = demoRows.length ∧
    List.Perm ((demoTs.map BalRow.row) ++ [snapshotRow]) demoRows ∧
    (∀ b ∈ demoTs, containsKontostand b.row.erl = false) ∧
    (∀ r ∈ [snapshotRow], containsKontostand r.erl = true) :=
  reconstruction_partition demoRows demoTs [snapshotRow] rfl

/-! ## Properties of the aggregator -/

/-- The amount column of a frame (spec wording: "the amounts"). -/
def amounts (df : List Row) : List ℚ := df.map Row.betrag

theorem sum_nonpos_of_nonpos (l : List ℚ) (h : ∀ x ∈ l, x ≤ 0) :
    l.sum ≤ 0 := by
  induction l with
  | nil => simp
  | cons a t ih =>
    have ha := h a (by simp)
    have ht := ih fun x hx => h x (by simp [hx])
    simp only [List.sum_cons]
    linarith

theorem filter_betrag_sum (df : List Row) (p : ℚ → Bool) :
    ((df.filter fun r => p r.betrag).map Row.betrag).sum =
      ((amounts df).filter p).sum := by
  rw [amounts, List.filter_map]
  rfl

/-- C5. `total_income` is the sum of the strictly positive amounts,
`total_expenses` the signed sum of the strictly negative amounts,
`net_balance` their sum; hence income is nonnegative and expenses
nonpositive, and an empty included set gives all three equal to zero. -/
theorem financial_totals (df : List Row) :
    (calculate_financials df).1 =
      ((amounts df).filter fun a => decide ((0 : ℚ) < a)).sum ∧
    (calculate_financials df).2.1 =
      ((amounts df).filter fun a => decide (a < (0 : ℚ))).sum ∧
    (calculate_financials df).2.2.1 =
      (calculate_financials df).1 + (calculate_financials df).2.1 ∧
    0 ≤ (calculate_financials df).1 ∧
    (calculate_financials df).2.1 ≤ 0 ∧
    (df = [] → (calculate_financials df).1 = 0 ∧
      (calculate_financials df).2.1 = 0 ∧ (calculate_financials df).2.2.1 = 0) := by
  refine ⟨filter_betrag_sum df (fun a => decide ((0 : ℚ) < a)),
    filter_betrag_sum df (fun a => decide (a < (0 : ℚ))), rfl, ?_, ?_, ?_⟩
  · refine List.sum_nonneg ?_
    intro x hx
    obtain ⟨r, hr, hxr⟩ := List.mem_map.mp hx
    have := (List.mem_filter.mp hr).2
    rw [← hxr]
    exact le_of_lt (by simpa using this)
  · refine sum_nonpos_of_nonpos _ ?_
    intro x hx
    obtain ⟨r, hr, hxr⟩ := List.mem_map.mp hx
    have := (List.mem_filter.mp hr).2
    rw [← hxr]
    exact le_of_lt (by simpa using this)
  · intro hdf
    subst hdf
    exact ⟨rfl, rfl, add_zero 0⟩

/-- Witness for C5 at the empty included set: all three totals are zero. -/
theorem financial_totals_witness :
    (calculate_financials []).1 = 0 ∧
    (calculate_financials []).2.1 = 0 ∧ (calculate_financials []).2.2.1 = 0 :=
  (financial_totals []).2.2.2.2.2 rfl

/-- C9. `unique_days` counts the distinct calendar dates of the included
set; with at least one such day the averages are the totals divided by it,
and with none they are zero. -/
theorem averages_per_day (df : List Row) :
    uniqueDays df = ((df.filterMap fun r => datumDate r.datum).dedup).length ∧
    (0 < uniqueDays df →
      (calculate_financials df).2.2.2.1 =
        (calculate_financials df).1 / (uniqueDays df : ℚ) ∧
      (calculate_financials df).2.2.2.2 =
        (calculate_financials df).2.1 / (uniqueDays df : ℚ)) ∧
    (uniqueDays df = 0 →
      (calculate_financials df).2.2.2.1 = 0 ∧
      (calculate_financials df).2.2.2.2 = 0) := by
  refine ⟨rfl, fun hpos => ?_, fun hzero => ?_⟩
  · simp only [calculate_financials]
    rw [if_pos hpos, if_pos hpos]
    exact ⟨rfl, rfl⟩
  · have hnot : ¬ 0 < uniqueDays df := by omega
    simp only [calculate_financials]
    rw [if_neg hnot, if_neg hnot]
    exact ⟨rfl, rfl⟩

/-- Witness for C9: the demonstration ledger rows span two distinct days, so
both averages are a total divided by the day count; the empty frame has zero
days and zero averages. -/
theorem averages_per_day_witness :
    ((calculate_financials [salaryRow, rentRow]).2.2.2.1 =
      (calculate_financials [salaryRow, rentRow]).1 /
        (uniqueDays [salaryRow, rentRow] : ℚ) ∧
    (calculate_financials [salaryRow, rentRow]).2.2.2.2 =
      (calculate_financials [salaryRow, rentRow]).2.1 /
        (uniqueDays [salaryRow, rentRow] : ℚ)) ∧
    ((calculate_financials []).2.2.2.1 = 0 ∧
      (calculate_financials []).2.2.2.2 = 0) :=
  ⟨(averages_per_day [salaryRow, rentRow]).2.1 (by decide),
   (averages_per_day []).2.2 rfl⟩

/-! ## Properties of the filter engine -/

theorem clean_range_eq (df : List Row) (s e : Date) :
    filtered_by_range (df.filter fun r => !isNaDatum (coerceDatum r.datum)) s e =
      filtered_by_range df s e := by
  unfold filtered_by_range
  rw [show ((df.filter fun r => !isNaDatum (coerceDatum r.datum)).map coerceRow) =
      ((df.map coerceRow).filter fun r => !isNaDatum r.datum) from
    (List.filter_map (p := fun r : Row => !isNaDatum r.datum) coerceRow df).symm]
  rw [List.filter_filter]
  refine List.filter_congr ?_
  intro r hr
  rcases hd : r.datum with d | st | _ <;>
    simp [datumGeStart, datumLeEnd, isNaDatum, hd]

theorem mem_range_not_na (df : List Row) (s e : Date) :
    ∀ r ∈ filtered_by_range df s e, isNaDatum r.datum = false := by
  intro r hr
  have hp := (List.mem_filter.mp hr).2
  rcases hd : r.datum with d | st | _
  · rfl
  · rw [hd] at hp; simp [datumGeStart] at hp
  · rw [hd] at hp; simp [datumGeStart] at hp

theorem mem_included_range (df : List Row) (s e : Date) (kws : List String) :
    ∀ r ∈ (filter_transactions df s e kws).1.1, r ∈ filtered_by_range df s e := by
  intro r hr
  by_cases hk : kws.isEmpty
  · simpa [filter_transactions, hk] using hr
  · rw [filter_transactions] at hr
    simp only [hk, if_false, Bool.false_eq_true] at hr
    exact List.mem_of_mem_filter hr

/-- C8. Rows whose date fails to coerce are returned in
`invalid_date_rows` and are absent from the included set; deleting them from
the input changes neither the included set, nor the financial totals, nor
the monthly buckets. -/
theorem invalid_dates_excluded (df : List Row) (s e : Date)
    (kws : List String) :
    (∀ r ∈ (filter_transactions df s e kws).1.2, isNaDatum r.datum = true) ∧
    (∀ r ∈ df, isNaDatum (coerceDatum r.datum) = true →
      coerceRow r ∈ (filter_transactions df s e kws).1.2) ∧
    (∀ r ∈ (filter_transactions df s e kws).1.1, isNaDatum r.datum = false) ∧
    (filter_transactions df s e kws).1.1 =
      (filter_transactions (df.filter fun r =>
        !isNaDatum (coerceDatum r.datum)) s e kws).1.1 ∧
    calculate_financials ((filter_transactions df s e kws).1.1) =
      calculate_financials ((filter_transactions (df.filter fun r =>
        !isNaDatum (coerceDatum r.datum)) s e kws).1.1) ∧
    monthly_summary ((filter_transactions df s e kws).1.1) =
      monthly_summary ((filter_transactions (df.filter fun r =>
        !isNaDatum (coerceDatum r.datum)) s e kws).1.1) := by
  have hinc : (filter_transactions df s e kws).1.1 =
      (filter_transactions (df.filter fun r =>
        !isNaDatum (coerceDatum r.datum)) s e kws).1.1 := by
    simp only [filter_transactions, clean_range_eq]
  refine ⟨?_, ?_, ?_, hinc, congrArg _ hinc, congrArg _ hinc⟩
  · intro r hr
    exact (List.mem_filter.mp hr).2
  · intro r hr hna
    refine List.mem_filter.mpr ⟨List.mem_map_of_mem coerceRow hr, ?_⟩
    show isNaDatum (coerceRow r).datum = true
    exact hna
  · intro r hr
    exact mem_range_not_na df s e r (mem_included_range df s e kws r hr)

/-- A row whose raw `Datum` cell cannot be parsed as a date. -/
def unparsableRow : Row := ⟨.raw "13.45.x", "Miete", -400⟩

/-- Witness for C8: the unparsable-date row lands in `invalid_date_rows` of
a concrete call (as its coerced, `NaT`-dated form). -/
theorem invalid_dates_excluded_witness :
    coerceRow unparsableRow ∈
      (filter_transactions [salaryRow, unparsableRow]
        ⟨2024, 1, 1⟩ ⟨2024, 12, 31⟩ []).1.2 :=
  (invalid_dates_excluded [salaryRow, unparsableRow]
    ⟨2024, 1, 1⟩ ⟨2024, 12, 31⟩ []).2.1 unparsableRow (by decide) (by decide)

theorem coerceRow_eq_self (r : Row) (h : coerceDatum r.datum = r.datum) :
    coerceRow r = r := by
  cases r with
  | mk d e b =>
    simp only [coerceRow]
    simp only at h
    rw [h]

/-- Line 54 applied to one record of the reconstructed ledger frame: the
frame `main` passes to `filter_transactions` (line 236) is the output of
`process_transactions` and carries the computed `Saldo` column; the
re-assignment `df["Datum"] = pd.to_datetime(df["Datum"], errors="coerce")`
touches only the `Datum` cell and leaves `Saldo` (like `Erläuterung` and
`Betrag EUR`) as it is. -/
def coerceBalRow (b : BalRow) : BalRow := ⟨coerceRow b.row, b.saldo⟩

/-- `filter_transactions` (lines 52-67) applied to the full reconstructed
ledger frame, `Saldo` column included — the call `main` actually makes at
line 236. The computation is the one of `filter_transactions`, with each
record's `Saldo` cell carried along; the second component is again the
content of the caller's frame after the in-place `Datum` re-assignment of
line 54. `filter_ledger_projects` below proves that dropping the `Saldo`
column commutes with the two embeddings. -/
def filter_transactions_ledger (df : List BalRow) (startD endD : Date)
    (keywords : List String) : (List BalRow × List BalRow) × List BalRow :=
  ((if keywords.isEmpty then
      (df.map coerceBalRow).filter fun b =>
        datumGeStart b.row.datum startD && datumLeEnd b.row.datum endD
    else ((df.map coerceBalRow).filter fun b =>
      datumGeStart b.row.datum startD && datumLeEnd b.row.datum endD).filter
        fun b => keywordTest keywords b.row.erl,
    (df.map coerceBalRow).filter fun b => isNaDatum b.row.datum),
   df.map coerceBalRow)

theorem map_row_coerceBal (df : List BalRow) :
    (df.map coerceBalRow).map BalRow.row = (df.map BalRow.row).map coerceRow := by
  rw [List.map_map, List.map_map]
  rfl

theorem map_row_filterBal (l : List BalRow) (p : Row → Bool) :
    (l.filter fun b => p b.row).map BalRow.row = (l.map BalRow.row).filter p :=
  (List.filter_map (p := p) BalRow.row l).symm

theorem map_row_range (l : List BalRow) (s e : Date) :
    (l.filter fun b =>
      datumGeStart b.row.datum s && datumLeEnd b.row.datum e).map BalRow.row =
    (l.map BalRow.row).filter fun r =>
      datumGeStart r.datum s && datumLeEnd r.datum e :=
  map_row_filterBal l fun r => datumGeStart r.datum s && datumLeEnd r.datum e

theorem map_row_na (l : List BalRow) :
    (l.filter fun b => isNaDatum b.row.datum).map BalRow.row =
      (l.map BalRow.row).filter fun r => isNaDatum r.datum :=
  map_row_filterBal l fun r => isNaDatum r.datum

theorem map_row_kw (l : List BalRow) (kws : List String) :
    (l.filter fun b => keywordTest kws b.row.erl).map BalRow.row =
      (l.map BalRow.row).filter fun r => keywordTest kws r.erl :=
  map_row_filterBal l fun r => keywordTest kws r.erl

/-- The ledger-level filter is the row-level filter with the `Saldo` column
carried along: projecting `Saldo` away commutes with all three outputs. -/
theorem filter_ledger_projects (df : List BalRow) (s e : Date)
    (kws : List String) :
    ((filter_transactions_ledger df s e kws).1.1).map BalRow.row =
      (filter_transactions (df.map BalRow.row) s e kws).1.1 ∧
    ((filter_transactions_ledger df s e kws).1.2).map BalRow.row =
      (filter_transactions (df.map BalRow.row) s e kws).1.2 ∧
    ((filter_transactions_ledger df s e kws).2).map BalRow.row =
      (filter_transactions (df.map BalRow.row) s e kws).2 := by
  refine ⟨?_, ?_, map_row_coerceBal df⟩
  · by_cases hk : kws.isEmpty = true
    · simp only [filter_transactions_ledger, filter_transactions, hk, if_true]
      rw [map_row_range, map_row_coerceBal]
      rfl
    · have hkf : kws.isEmpty = false := by
        cases h2 : kws.isEmpty
        · rfl
        · exact absurd h2 hk
      simp only [filter_transactions_ledger, filter_transactions, hkf,
        Bool.false_eq_true, if_false]
      rw [map_row_kw, map_row_range, map_row_coerceBal]
      rfl
  · show ((df.map coerceBalRow).filter fun b =>
      isNaDatum b.row.datum).map BalRow.row = _
    rw [map_row_na, map_row_coerceBal]
    rfl

/-- A reconstructed-ledger record whose raw `Datum` cell cannot be parsed. -/
def unparsableBalRow : BalRow := ⟨unparsableRow, -400⟩

/-- C10 counterexample: filtering a reconstructed ledger that contains an
unparsable raw date mutates the caller's frame — line 54 re-assigns the
`Datum` column in place, turning that cell into `NaT`. -/
theorem filter_mutates_input_counterexample :
    (filter_transactions_ledger [unparsableBalRow]
      ⟨2024, 1, 1⟩ ⟨2024, 12, 31⟩ []).2 ≠ [unparsableBalRow] := by decide

theorem coerceBalRow_eq_self (b : BalRow)
    (h : coerceDatum b.row.datum = b.row.datum) : coerceBalRow b = b := by
  cases b with
  | mk r sal =>
    simp only [coerceBalRow]
    rw [coerceRow_eq_self r h]

/-- C10 (amended). Filtering the reconstructed ledger never reorders, adds
or removes its records and never alters their descriptions, amounts, or
computed balances — line 54 re-assigns only the `Datum` column. The input
ledger is therefore left fully unchanged exactly when every date is already
a parsed date or `NaT`; a ledger containing an unparsable raw date cell is
mutated (that cell becomes `NaT`). The filtered outputs are separate
derived frames. -/
theorem filter_transactions_frame (df : List BalRow) (s e : Date)
    (kws : List String) :
    ((filter_transactions_ledger df s e kws).2).map (fun b => b.row.erl) =
      df.map (fun b => b.row.erl) ∧
    ((filter_transactions_ledger df s e kws).2).map (fun b => b.row.betrag) =
      df.map (fun b => b.row.betrag) ∧
    ((filter_transactions_ledger df s e kws).2).map BalRow.saldo =
      df.map BalRow.saldo ∧
    ((filter_transactions_ledger df s e kws).2).length = df.length ∧
    ((∀ b ∈ df, coerceDatum b.row.datum = b.row.datum) →
      (filter_transactions_ledger df s e kws).2 = df) := by
  refine ⟨?_, ?_, ?_, ?_, ?_⟩
  · show (df.map coerceBalRow).map _ = _
    rw [List.map_map]
    rfl
  · show (df.map coerceBalRow).map _ = _
    rw [List.map_map]
    rfl
  · show (df.map coerceBalRow).map _ = _
    rw [List.map_map]
    rfl
  · show (df.map coerceBalRow).length = df.length
    exact List.length_map df coerceBalRow
  · intro h
    show df.map coerceBalRow = df
    induction df with
    | nil => rfl
    | cons b t ih =>
      have hb := coerceBalRow_eq_self b (h b (by simp))
      have ht := ih fun x hx => h x (by simp [hx])
      simp [hb, ht]

/-- Witness for C10's amended claim at the reconstructed demonstration
ledger (whose dates are all parsed): the caller's frame — `Saldo` column
included — is unchanged by the call. -/
theorem filter_transactions_frame_witness :
    (filter_transactions_ledger demoTs ⟨2024, 1, 1⟩ ⟨2024, 12, 31⟩
      ["miete"]).2 = demoTs :=
  (filter_transactions_frame demoTs ⟨2024, 1, 1⟩ ⟨2024, 12, 31⟩
    ["miete"]).2.2.2.2 (by decide)

/-! ## The keyword stage: regex alternation versus substring search -/

/-- The metacharacters of Python regular expressions. A keyword built only
from other characters denotes itself literally inside the
`"|".join(keywords)` pattern. -/
def metaChars : List Char :=
  ['\\', '.', '^', '$', '*', '+', '?', '\x7b', '\x7d', '[', ']', '(', ')', '|']

/-- The spec-side notion (§4.3): `kw` occurs in `s` as a case-insensitive
substring. -/
def containsCI (kw s : String) : Bool :=
  substringOf (lowerList kw.toList) (lowerList s.toList)

theorem toNat_ofNat_of_valid (n : Nat) (h : Nat.isValidChar n) :
    (Char.ofNat n).toNat = n := by
  rw [Char.ofNat, dif_pos h]
  rfl

theorem lowerChar_toNat (c : Char) :
    (lowerChar c).toNat =
      if 65 ≤ c.toNat ∧ c.toNat ≤ 90 then c.toNat + 32 else c.toNat := by
  unfold lowerChar
  split
  · next h => exact toNat_ofNat_of_valid _ (Or.inl (by omega))
  · rfl

theorem lowerChar_ne_bar (c : Char) (h : c ≠ '|') : lowerChar c ≠ '|' := by
  intro he
  have ht := congrArg Char.toNat he
  rw [lowerChar_toNat] at ht
  have h124 : ('|' : Char).toNat = 124 := rfl
  rw [h124] at ht
  split at ht
  · next hc => omega
  · refine h ?_
    rw [← Char.ofNat_toNat c, ht]

theorem lowerChar_ne_dot (c : Char) (h : c ≠ '.') : lowerChar c ≠ '.' := by
  intro he
  have ht := congrArg Char.toNat he
  rw [lowerChar_toNat] at ht
  have h46 : ('.' : Char).toNat = 46 := rfl
  rw [h46] at ht
  split at ht
  · next hc => omega
  · refine h ?_
    rw [← Char.ofNat_toNat c, ht]

theorem lowerChar_bar : lowerChar '|' = '|' := rfl

theorem lowerList_joinBar : ∀ bs : List (List Char),
    lowerList (joinBar bs) = joinBar (bs.map lowerList) := by
  intro bs
  induction bs with
  | nil => rfl
  | cons k ks ih =>
    cases ks with
    | nil => rfl
    | cons k2 ks2 =>
      show lowerList (k ++ '|' :: joinBar (k2 :: ks2)) = _
      rw [show joinBar ((k :: k2 :: ks2).map lowerList) =
        lowerList k ++ '|' :: joinBar ((k2 :: ks2).map lowerList) from rfl]
      rw [← ih]
      simp [lowerList, lowerChar_bar]

theorem splitBar_no_bar (k : List Char) (h : '|' ∉ k) : splitBar k = [k] := by
  induction k with
  | nil => rfl
  | cons c cs ih =>
    have hc : ¬ c = '|' := fun he => h (by simp [he])
    have ihs := ih fun hm => h (by simp [hm])
    simp [splitBar, hc, ihs]

theorem splitBar_append_bar (k t : List Char) (h : '|' ∉ k) :
    splitBar (k ++ '|' :: t) = k :: splitBar t := by
  induction k with
  | nil => simp [splitBar]
  | cons c cs ih =>
    have hc : ¬ c = '|' := fun he => h (by simp [he])
    have ihs := ih fun hm => h (by simp [hm])
    simp [splitBar, hc, ihs]

theorem splitBar_joinBar (bs : List (List Char)) (hne : bs ≠ [])
    (h : ∀ b ∈ bs, '|' ∉ b) : splitBar (joinBar bs) = bs := by
  induction bs with
  | nil => exact absurd rfl hne
  | cons k ks ih =>
    cases ks with
    | nil => exact splitBar_no_bar k (h k (by simp))
    | cons k2 ks2 =>
      show splitBar (k ++ '|' :: joinBar (k2 :: ks2)) = _
      rw [splitBar_append_bar k (joinBar (k2 :: ks2)) (h k (by simp)),
        ih (by simp) fun b hb => h b (by simp [hb])]

theorem matchesAt_eq_prefixOfL (b : List Char) (hb : '.' ∉ b) :
    ∀ s, matchesAt b s = prefixOfL b s := by
  induction b with
  | nil => intro s; rfl
  | cons a as ih =>
    intro s
    cases s with
    | nil => rfl
    | cons c cs =>
      have ha : (a == '.') = false := by
        refine beq_eq_false_iff_ne.mpr fun he => hb (by simp [he])
      simp [matchesAt, prefixOfL, atomMatch, ha,
        ih fun hm => hb (by simp [hm])]

theorem searchBranch_eq_substringOf (b : List Char) (hb : '.' ∉ b) :
    ∀ s, searchBranch b s = substringOf b s := by
  intro s
  induction s with
  | nil =>
    cases b with
    | nil => rfl
    | cons a as => rfl
  | cons c cs ih =>
    simp [searchBranch, substringOf, matchesAt_eq_prefixOfL b hb, ih]

theorem any_map_congr {α β : Type} (l : List α) (f : α → β) (p : β → Bool)
    (q : α → Bool) (h : ∀ x ∈ l, p (f x) = q x) :
    (l.map f).any p = l.any q := by
  induction l with
  | nil => rfl
  | cons a t ih =>
    simp only [List.map_cons, List.any_cons, h a (by simp),
      ih fun x hx => h x (by simp [hx])]

theorem keywordTest_eq (kws : List String) (erl : String)
    (hmeta : ∀ kw ∈ kws, ∀ c ∈ kw.toList, c ∉ metaChars) (hne : kws ≠ []) :
    keywordTest kws erl = kws.any fun kw => containsCI kw erl := by
  unfold keywordTest reSearch
  rw [lowerList_joinBar, List.map_map]
  rw [splitBar_joinBar (kws.map (lowerList ∘ String.toList))
    (by simpa using hne) ?hbar]
  case hbar =>
    intro b hb hbar
    obtain ⟨kw, hkw, hbk⟩ := List.mem_map.mp hb
    rw [← hbk] at hbar
    obtain ⟨c, hc, hlc⟩ := List.mem_map.mp hbar
    have hcnm : c ∉ metaChars := hmeta kw hkw c hc
    have : c ≠ '|' := fun he => hcnm (by rw [he]; decide)
    exact lowerChar_ne_bar c this hlc
  refine any_map_congr kws _ _ _ fun kw hkw => ?_
  have hdot : '.' ∉ lowerList kw.toList := by
    intro hm
    obtain ⟨c, hc, hlc⟩ := List.mem_map.mp hm
    have hcnm : c ∉ metaChars := hmeta kw hkw c hc
    have : c ≠ '.' := fun he => hcnm (by rw [he]; decide)
    exact lowerChar_ne_dot c this hlc
  exact searchBranch_eq_substringOf (lowerList kw.toList) hdot
    (lowerList erl.toList)

/-- C7 counterexample: with the keyword list `["."]` the date-range-passing
row with description "abc" is kept — `str.contains` interprets the joined
keywords as a regular expression, and `.` matches any character — although
no keyword occurs in the description as a substring. -/
def abcRow : Row := ⟨.date ⟨2024, 1, 2⟩, "abc", 5⟩

theorem keyword_regex_counterexample :
    (filter_transactions [abcRow] ⟨2024, 1, 1⟩ ⟨2024, 12, 31⟩ ["."]).1.1 =
      [abcRow] ∧
    (∀ kw ∈ (["."] : List String), containsCI kw abcRow.erl = false) := by
  decide

/-- C7 (amended). The joined keywords act as a case-insensitive regular
expression; for keywords free of regex metacharacters this is exactly the
claimed behaviour: with a non-empty keyword list a date-range-passing row is
kept iff its description contains at least one keyword as a case-insensitive
substring (OR across keywords), and with an empty keyword list the stage is
a no-op. -/
theorem keyword_filter_or (df : List Row) (s e : Date) (kws : List String)
    (hmeta : ∀ kw ∈ kws, ∀ c ∈ kw.toList, c ∉ metaChars) :
    (kws = [] →
      (filter_transactions df s e kws).1.1 = filtered_by_range df s e) ∧
    (kws ≠ [] →
      (filter_transactions df s e kws).1.1 =
        (filtered_by_range df s e).filter fun r =>
          kws.any fun kw => containsCI kw r.erl) := by
  constructor
  · intro h
    subst h
    rfl
  · intro hne
    have hkE : kws.isEmpty = false := by
      cases kws
      · exact absurd rfl hne
      · rfl
    show (if kws.isEmpty then filtered_by_range df s e
      else (filtered_by_range df s e).filter fun r =>
        keywordTest kws r.erl) = _
    rw [hkE]
    simp only [Bool.false_eq_true, if_false]
    exact List.filter_congr fun r hr => keywordTest_eq kws r.erl hmeta hne

/-- Witness for C7's amended claim: a two-keyword OR filter (one keyword
matching case-insensitively, one not) on a concrete row. -/
theorem keyword_filter_or_witness :
    (filter_transactions [abcRow] ⟨2024, 1, 1⟩ ⟨2024, 12, 31⟩
      ["zz", "AB"]).1.1 =
      (filtered_by_range [abcRow] ⟨2024, 1, 1⟩ ⟨2024, 12, 31⟩).filter fun r =>
        (["zz", "AB"] : List String).any fun kw => containsCI kw r.erl :=
  (keyword_filter_or [abcRow] ⟨2024, 1, 1⟩ ⟨2024, 12, 31⟩ ["zz", "AB"]
    (by decide)).2 (by decide)

/-! ## Properties of the monthly aggregation -/

instance : IsTotal (Int × Int) monthLe :=
  ⟨fun a b => by unfold monthLe; omega⟩

instance : IsTrans (Int × Int) monthLe :=
  ⟨fun a b c h1 h2 => by unfold monthLe at *; omega⟩

instance : IsAntisymm (Int × Int) monthLe :=
  ⟨fun a b h1 h2 => by
    unfold monthLe at h1 h2
    rw [Prod.ext_iff]
    constructor <;> omega⟩

theorem map_congr_mem {α β : Type} (l : List α) (f g : α → β)
    (h : ∀ x ∈ l, f x = g x) : l.map f = l.map g := by
  induction l with
  | nil => rfl
  | cons a t ih =>
    simp only [List.map_cons, h a (by simp),
      ih fun x hx => h x (by simp [hx])]

theorem monthly_summary_keys (df : List Row) :
    (monthly_summary df).map Prod.fst = monthKeys df := by
  unfold monthly_summary
  generalize monthKeys df = l
  induction l with
  | nil => rfl
  | cons k t ih => simp [ih]

theorem monthKeys_perm_dedup (df : List Row) :
    List.Perm (monthKeys df) (df.filterMap rowMonth).dedup :=
  List.perm_insertionSort monthLe _

/-- C6. The monthly aggregation produces exactly one bucket per (year,
month) present in the frame, in chronological order; each bucket's income
is the sum of that month's positive amounts, its expense the negated (hence
nonnegative) sum of that month's negative amounts; and the whole table is
invariant under permutation of the input rows. -/
theorem monthly_buckets (df df2 : List Row) :
    (List.Perm df df2 → monthly_summary df = monthly_summary df2) ∧
    ((monthly_summary df).map Prod.fst).Nodup ∧
    (∀ k : Int × Int, k ∈ (monthly_summary df).map Prod.fst ↔
      ∃ r ∈ df, rowMonth r = some k) ∧
    List.Pairwise monthLe ((monthly_summary df).map Prod.fst) ∧
    (∀ b ∈ monthly_summary df,
      b.2.1 = month_income df b.1 ∧
      b.2.2 = month_expense df b.1 ∧ 0 ≤ b.2.2) := by
  refine ⟨?_, ?_, ?_, ?_, ?_⟩
  · intro hp
    have hkeq : monthKeys df = monthKeys df2 := by
      refine List.eq_of_perm_of_sorted ?_ (List.sorted_insertionSort monthLe _)
        (List.sorted_insertionSort monthLe _)
      exact ((monthKeys_perm_dedup df).trans
        ((hp.filterMap rowMonth).dedup)).trans (monthKeys_perm_dedup df2).symm
    have hinc : ∀ k, month_income df k = month_income df2 k := by
      intro k
      unfold month_income monthRows
      exact List.Perm.sum_eq (((hp.filter _).filter _).map Row.betrag)
    have hexp : ∀ k, month_expense df k = month_expense df2 k := by
      intro k
      unfold month_expense monthRows
      rw [List.Perm.sum_eq (((hp.filter _).filter _).map Row.betrag)]
    unfold monthly_summary
    rw [hkeq]
    exact map_congr_mem _ _ _ fun k _ => by rw [hinc k, hexp k]
  · rw [monthly_summary_keys]
    exact (monthKeys_perm_dedup df).symm.nodup (List.nodup_dedup _)
  · intro k
    rw [monthly_summary_keys]
    rw [(monthKeys_perm_dedup df).mem_iff, List.mem_dedup, List.mem_filterMap]
  · rw [monthly_summary_keys]
    exact List.sorted_insertionSort monthLe _
  · intro b hb
    obtain ⟨k, _, hbk⟩ := List.mem_map.mp hb
    rw [← hbk]
    refine ⟨rfl, rfl, ?_⟩
    show 0 ≤ month_expense df k
    unfold month_expense
    rw [mul_neg_one]
    refine neg_nonneg.mpr (sum_nonpos_of_nonpos _ ?_)
    intro x hx
    obtain ⟨r, hr, hxr⟩ := List.mem_map.mp hx
    have := (List.mem_filter.mp hr).2
    rw [← hxr]
    exact le_of_lt (by simpa using this)

/-- Rows for the C6 witness: January and February 2024 amounts, deliberately
listed out of chronological order. -/
def janCredit : Row := ⟨.date ⟨2024, 1, 3⟩, "a", 10⟩

def janDebit : Row := ⟨.date ⟨2024, 1, 9⟩, "b", -4⟩

def febCredit : Row := ⟨.date ⟨2024, 2, 1⟩, "c", 7⟩

/-- Witness for C6: permuting a concrete two-month frame does not change its
monthly summary table. -/
theorem monthly_buckets_witness :
    monthly_summary [febCredit, janDebit, janCredit] =
      monthly_summary [janCredit, janDebit, febCredit] :=
  (monthly_buckets [febCredit, janDebit, janCredit]
    [janCredit, janDebit, febCredit]).1 (by decide)

end Digifin
